import Mathlib

/-!
Verification of the GitCommitsTracker repository: a shallow embedding of its
multi-repository aggregation and caching engine.

Sources embedded:
* `src/src/GitHubDevTracker.js` — single-repository tracker (all branches):
  `getCommitsInRange` (dedup across branches by commit SHA), `analyzeCommits`
  (per-author fold), `createLeaderboard`.
* `src/unnamed/part_006` — `MultiRepoTracker`: `getAllRepositories`
  (org-endpoint with user-endpoint fallback), `getAllContributors`,
  `getCommitsInRange` / `analyzeRepoCommits` (default branch only),
  `aggregateStats` (date-window derivation, roster initialisation,
  per-repository merge loop with try/catch), `createLeaderboard`,
  `printAggregatedReport` (active/inactive partition).
* `src/unnamed/part_005` — dashboard server: in-memory cache
  (`getFromCache`/`setCache`, 5-minute TTL), file snapshot cache
  (`getReportFromFile`, 1-hour TTL by file mtime), and the report handler's
  three-tier lookup.

Modelling conventions:
* JavaScript objects used as string-keyed maps are association lists
  `List (String × α)`; `objGet`/`objSet` reproduce object semantics
  (updating an existing key keeps its position, a new key is appended).
* Paginated endpoints are collapsed to a single fetch returning all items
  (the JS loops accumulate pages until a short page; an error mid-pagination
  truncates, which for our single-fetch model means the error outcome).
* `Array.prototype.sort` with the commit/netLines comparator is modelled as a
  stable insertion sort with respect to the comparator's `≤ 0` relation.
* Timestamps (`Date.now()`, `mtimeMs`) are naturals in milliseconds; calendar
  dates are (day index, millisecond of day) pairs, so `setHours(0,0,0,0)`
  zeroes the time of day and `setDate(getDate() ± n)` shifts the day index.
-/

namespace GitTracker

/-- JavaScript `a || b` on strings: the empty string is falsy. -/
def jsOr (s d : String) : String := if s = "" then d else s

/-- A commit as returned by the origin commit-listing API.
`login` is `commit.author?.login` (`none` when the author has no platform
account), `name`/`email` are `commit.commit.author.name` / `.email`. -/
structure Commit where
  sha : String
  login : Option String
  name : String
  email : String
deriving DecidableEq, Repr

/-- `GitHubDevTracker.analyzeCommits`: the author display name with the
`|| 'Unknown'` default. -/
def authorNameOf (c : Commit) : String := jsOr c.name "Unknown"

/-- `GitHubDevTracker.analyzeCommits`: the author email with the
`|| 'unknown@email.com'` default. -/
def authorEmailOf (c : Commit) : String := jsOr c.email "unknown@email.com"

/-- `const authorId = commit.author ? commit.author.login : authorName`. -/
def authorId (c : Commit) : String :=
  match c.login with
  | some l => l
  | none => authorNameOf c

/-- Per-author accumulator record of `analyzeCommits` (`devStats[authorId]`). -/
structure DevStat where
  commits : Nat
  additions : Nat
  deletions : Nat
  netLines : Int
  commitShas : List String
  email : String
  name : String
deriving DecidableEq, Repr

/-- JS object read `m[k]`. -/
def objGet : List (String × α) → String → Option α
  | [], _ => none
  | p :: rest, k => if p.1 = k then some p.2 else objGet rest k

/-- JS object write `m[k] = v`: an existing key is updated in place, a new
key is appended (object insertion order). -/
def objSet : List (String × α) → String → α → List (String × α)
  | [], k, v => [(k, v)]
  | p :: rest, k, v => if p.1 = k then (k, v) :: rest else p :: objSet rest k v

/-- `Map.prototype.delete` / key removal. -/
def objDelete (m : List (String × α)) (k : String) : List (String × α) :=
  m.filter (fun p => p.1 ≠ k)

/-- One step of `GitHubDevTracker.getCommitsInRange`'s dedup loop:
`if (!allCommits.has(commit.sha)) allCommits.set(commit.sha, commit)`. -/
def insertUnique (acc : List Commit) (c : Commit) : List Commit :=
  if acc.any (fun d => d.sha == c.sha) then acc else acc ++ [c]

/-- The `allCommits` map of `getCommitsInRange`, keyed by SHA, keeping the
first occurrence, in insertion order (`Array.from(allCommits.values())`). -/
def dedupeBySha (cs : List Commit) : List Commit := cs.foldl insertUnique []

/-- `GitHubDevTracker.getCommitsInRange`: fetch every branch's commits in the
window (here: the given per-branch lists) and deduplicate by SHA across
branches, branches visited in order. -/
def getCommitsInRange (branches : List (List Commit)) : List Commit :=
  dedupeBySha branches.flatten

/-- The body of the `analyzeCommits` loop for one commit: fetch the commit's
stats (`statsOf` abstracts `getCommitStats`, which itself returns `{0,0}` on
any failure) and fold them into the author's accumulator. -/
def analyzeStep (statsOf : String → Nat × Nat) (dev : List (String × DevStat))
    (c : Commit) : List (String × DevStat) :=
  let aid := authorId c
  let st := statsOf c.sha
  let cur := (objGet dev aid).getD
    ⟨0, 0, 0, 0, [], authorEmailOf c, authorNameOf c⟩
  objSet dev aid
    ⟨cur.commits + 1, cur.additions + st.1, cur.deletions + st.2,
     cur.netLines + ((st.1 : Int) - (st.2 : Int)),
     cur.commitShas ++ [c.sha], cur.email, cur.name⟩

/-- `analyzeCommits` (both trackers): fold the commit list into the per-author
stats object. (The JS early return `{}` for an empty list coincides with the
empty fold.) -/
def analyzeCommits (statsOf : String → Nat × Nat) (commits : List Commit) :
    List (String × DevStat) :=
  commits.foldl (analyzeStep statsOf) []

/-- The commit count recorded for author `a` (0 when absent). -/
def devCommits (m : List (String × DevStat)) (a : String) : Nat :=
  ((objGet m a).map (·.commits)).getD 0

/-- The (commits, additions, deletions, netLines) quadruple recorded for
author `a` in a per-repository stats object (zeros when absent). -/
def devNums (m : List (String × DevStat)) (a : String) : Nat × Nat × Nat × Int :=
  match objGet m a with
  | some s => (s.commits, s.additions, s.deletions, s.netLines)
  | none => (0, 0, 0, 0)

/-- Per-author record of `MultiRepoTracker.aggregateStats`'s aggregated map. -/
structure AggStat where
  commits : Nat
  additions : Nat
  deletions : Nat
  netLines : Int
  repositories : List String
  email : String
  name : String
deriving DecidableEq, Repr

/-- `aggregateStats` roster initialisation: every contributor starts with a
zeroed record (`name: contributor`, empty email). -/
def initAgg (contributors : List String) : List (String × AggStat) :=
  contributors.foldl (fun m c => objSet m c ⟨0, 0, 0, 0, [], "", c⟩) []

/-- The body of the aggregation loop for one developer of one repository:
sum the numeric fields, prefer a non-empty email/name from the repository
data, and append the repository to the touched list if not yet present.
A developer absent from the aggregated map is first initialised with zeros
and the repository data's email/name. -/
def mergeDev (repo : String) (agg : List (String × AggStat)) (dev : String)
    (data : DevStat) : List (String × AggStat) :=
  let cur := (objGet agg dev).getD ⟨0, 0, 0, 0, [], data.email, data.name⟩
  objSet agg dev
    ⟨cur.commits + data.commits, cur.additions + data.additions,
     cur.deletions + data.deletions, cur.netLines + data.netLines,
     if cur.repositories.contains repo then cur.repositories
       else cur.repositories ++ [repo],
     jsOr data.email cur.email, jsOr data.name cur.name⟩

/-- `for (const [dev, data] of Object.entries(stats))`: merge one
repository's stats object into the aggregated map, entries in object order. -/
def mergeRepoStats (repo : String) (agg : List (String × AggStat))
    (stats : List (String × DevStat)) : List (String × AggStat) :=
  stats.foldl (fun a p => mergeDev repo a p.1 p.2) agg

/-- The result record of `aggregateStats`
(`{ aggregated, byRepo, allContributors }`). -/
structure AggResult where
  aggregated : List (String × AggStat)
  byRepo : List (String × List (String × DevStat))
  allContributors : List String
deriving Repr

/-- One iteration of the `for (const repo of reposToTrack)` loop of
`aggregateStats`. A repository whose aggregation succeeded is recorded in
`statsByRepo` and merged; one whose aggregation threw (the `catch` branch)
is recorded as `statsByRepo[repo] = {}` and not merged. -/
def aggStep (st : List (String × AggStat) × List (String × List (String × DevStat)))
    (rp : String × Except Unit (List (String × DevStat))) :
    List (String × AggStat) × List (String × List (String × DevStat)) :=
  match rp.2 with
  | .ok stats => (mergeRepoStats rp.1 st.1 stats, objSet st.2 rp.1 stats)
  | .error _ => (st.1, objSet st.2 rp.1 [])

/-- The aggregation phase of `aggregateStats`, after the roster and the
per-repository outcomes (computed stats, or the thrown error) are known:
initialise the roster with zeroed records and fold the per-repository loop. -/
def aggregateLoop (roster : List String)
    (repoResults : List (String × Except Unit (List (String × DevStat)))) :
    AggResult :=
  let res := repoResults.foldl aggStep (initAgg roster, [])
  ⟨res.1, res.2, roster⟩

/-- The (commits, additions, deletions, netLines) quadruple recorded for
author `a` in the aggregated map (zeros when absent). -/
def aggNums (m : List (String × AggStat)) (a : String) : Nat × Nat × Nat × Int :=
  match objGet m a with
  | some s => (s.commits, s.additions, s.deletions, s.netLines)
  | none => (0, 0, 0, 0)

/-- Failure kinds of the origin API (HTTP 401, 403 rate limit, 404, 5xx /
network, and the 409 "empty repository" conflict). -/
inductive GHError where
  | authFailure
  | rateLimited
  | notFound
  | transient
  | conflict
deriving DecidableEq, Repr

/-- A repository as listed by the origin (`r.name`, `r.owner.login`). -/
structure RepoInfo where
  name : String
  ownerLogin : String
deriving DecidableEq, Repr

/-- The origin API as seen by `MultiRepoTracker`: each endpoint either
returns its items or fails with a `GHError` (pagination collapsed, see the
file header). -/
structure Origin where
  orgRepos : Except GHError (List RepoInfo)
  userRepos : Except GHError (List RepoInfo)
  contributors : String → Except GHError (List String)
  commits : String → Except GHError (List Commit)
  commitStats : String → String → Except GHError (Nat × Nat)

/-- JS `String.prototype.toLowerCase` (ASCII case folding suffices for the
owner-name comparisons in the source). -/
def strToLower (s : String) : String := ⟨s.data.map Char.toLower⟩

/-- The fallback half of `MultiRepoTracker.getAllRepositories`: the
`/user/repos` listing, filtered client-side by case-insensitive owner match
when an organization name is configured; any error is caught (`break`),
leaving the accumulated (here: empty) list. -/
def userRepoFallback (o : Origin) (orgName : Option String) : List String :=
  match o.userRepos with
  | .ok rs =>
    let filtered : List RepoInfo :=
      match orgName with
      | some org => rs.filter (fun r => strToLower r.ownerLogin == strToLower org)
      | none => rs
    filtered.map (·.name)
  | .error _ => []

/-- `MultiRepoTracker.getAllRepositories`: try the organization endpoint
first (when an organization is configured); on an error, or when it returns
no repositories, fall back to the user-repositories endpoint. -/
def getAllRepositories (o : Origin) (orgName : Option String) : List String :=
  match orgName with
  | some _ =>
    match o.orgRepos with
    | .ok rs => if 0 < rs.length then rs.map (·.name) else userRepoFallback o orgName
    | .error _ => userRepoFallback o orgName
  | none => userRepoFallback o orgName

/-- `MultiRepoTracker.getAllContributors`: union of each repository's
contributor logins (a `Set`, materialised in insertion order); a repository
whose contributor listing fails is skipped. -/
def getAllContributors (o : Origin) (orgName : Option String)
    (repositories : Option (List String)) : List String :=
  let reposToTrack := repositories.getD (getAllRepositories o orgName)
  reposToTrack.foldl
    (fun acc repo =>
      match o.contributors repo with
      | .ok cs => cs.foldl (fun a c => if a.contains c then a else a ++ [c]) acc
      | .error _ => acc)
    []

/-- `MultiRepoTracker.getCommitsInRange`: list the default branch's commits
in the window; every error (409 empty repository or otherwise) breaks the
loop, leaving the commits accumulated so far (here: none). -/
def getCommitsInRangeMulti (o : Origin) (repo : String) : List Commit :=
  match o.commits repo with
  | .ok cs => cs
  | .error _ => []

/-- `MultiRepoTracker.getCommitStats`: per-commit diff stats, `{0,0}` on any
failure. -/
def getCommitStatsMulti (o : Origin) (repo sha : String) : Nat × Nat :=
  match o.commitStats repo sha with
  | .ok p => p
  | .error _ => (0, 0)

/-- `MultiRepoTracker.analyzeRepoCommits`: analyze one repository's
default-branch commits. -/
def analyzeRepoCommits (o : Origin) (repo : String) : List (String × DevStat) :=
  analyzeCommits (getCommitStatsMulti o repo) (getCommitsInRangeMulti o repo)

/-- `MultiRepoTracker.aggregateStats`, window derivation aside: resolve the
repository scope (explicit list or auto-discovery), return the empty result
when it is empty, otherwise compute the roster and run the aggregation loop.
Since every origin failure below this level is absorbed, each repository's
aggregation yields `Except.ok`. -/
def aggregateStats (o : Origin) (orgName : Option String)
    (repositories : Option (List String)) : AggResult :=
  let reposToTrack := repositories.getD (getAllRepositories o orgName)
  if reposToTrack.length = 0 then ⟨[], [], []⟩
  else
    let allContribs := getAllContributors o orgName repositories
    aggregateLoop allContribs
      (reposToTrack.map (fun r => (r, Except.ok (analyzeRepoCommits o r))))

/-- An origin on which every call fails with the same error (e.g. an invalid
credential failing every request with 401). -/
def failingOrigin (e : GHError) : Origin :=
  ⟨.error e, .error e, fun _ => .error e, fun _ => .error e, fun _ _ => .error e⟩

/-- A JavaScript `Date` at civil-time granularity: a day index and the
millisecond within the day. `setHours`/`setDate` act on these components. -/
structure JSDate where
  day : Int
  ms : Nat
deriving DecidableEq, Repr

/-- Milliseconds per day. -/
def msPerDay : Nat := 86400000

/-- `d.setHours(0, 0, 0, 0)`. -/
def setMidnight (d : JSDate) : JSDate := ⟨d.day, 0⟩

/-- `d.setHours(23, 59, 59, 999)`. -/
def setEndOfDay (d : JSDate) : JSDate := ⟨d.day, msPerDay - 1⟩

/-- `d.setDate(d.getDate() + n)`. -/
def addDays (d : JSDate) (n : Int) : JSDate := ⟨d.day + n, d.ms⟩

/-- `a ≤ b` on instants (lexicographic on day then millisecond). -/
def dleq (a b : JSDate) : Prop :=
  a.day < b.day ∨ (a.day = b.day ∧ a.ms ≤ b.ms)

/-- `a < b` on instants. -/
def dlt (a b : JSDate) : Prop :=
  a.day < b.day ∨ (a.day = b.day ∧ a.ms < b.ms)

instance : DecidableRel dleq := fun a b => by unfold dleq; infer_instance

instance : DecidableRel dlt := fun a b => by unfold dlt; infer_instance

/-- The `(startDate, endDate)` derivation of `MultiRepoTracker.aggregateStats`
from the period and the anchor date (an unrecognised period falls back to the
daily window). -/
def dateRange (period : String) (date : JSDate) : JSDate × JSDate :=
  if period = "daily" then
    let s := setMidnight date
    (s, addDays s 1)
  else if period = "weekly" then
    let e := setEndOfDay date
    let s := setMidnight (addDays date (-7))
    (s, e)
  else if period = "monthly" then
    let e := setEndOfDay date
    let s := setMidnight (addDays date (-30))
    (s, e)
  else
    let s := setMidnight date
    (s, addDays s 1)

/-- `aggregateStats`'s anchor handling: `if (!date) date = new Date()` —
the window is derived from the given anchor, defaulting to the current
time. -/
def aggregateWindow (period : String) (date : Option JSDate) (now : JSDate) :
    JSDate × JSDate :=
  dateRange period (date.getD now)

/-- One entry of the dashboard server's in-memory cache `Map`
(`{ data, timestamp }`). -/
structure MemEntry (D : Type) where
  data : D
  timestamp : Nat
deriving DecidableEq, Repr

/-- `CACHE_DURATION = 5 * 60 * 1000` (memory tier, 5 minutes). -/
def CACHE_DURATION : Nat := 5 * 60 * 1000

/-- `FILE_CACHE_DURATION = 60 * 60 * 1000` (file tier, 1 hour). -/
def FILE_CACHE_DURATION : Nat := 60 * 60 * 1000

/-- `getFromCache(key)`: return the entry's data when it is younger than
`CACHE_DURATION`; otherwise delete the key and return `null`. (JS number
subtraction can go negative, in which case the entry counts as fresh; the
truncated natural subtraction agrees.) -/
def getFromCache (cache : List (String × MemEntry D)) (key : String)
    (now : Nat) : Option D × List (String × MemEntry D) :=
  match objGet cache key with
  | some e =>
    if now - e.timestamp < CACHE_DURATION then (some e.data, cache)
    else (none, objDelete cache key)
  | none => (none, objDelete cache key)

/-- `setCache(key, data)`: store the data with the current timestamp. -/
def setCache (cache : List (String × MemEntry D)) (key : String) (data : D)
    (now : Nat) : List (String × MemEntry D) :=
  objSet cache key ⟨data, now⟩

/-- `getReportFromFile`: serve the snapshot only while
`Date.now() - stats.mtimeMs < FILE_CACHE_DURATION`; a missing file or a
stale file yields `null`. The file system is a map from snapshot path to
(mtime, parsed content). -/
def getReportFromFile (files : String → Option (Nat × D)) (filePath : String)
    (now : Nat) : Option D :=
  match files filePath with
  | some (mtime, content) =>
    if now - mtime < FILE_CACHE_DURATION then some content else none
  | none => none

/-- The `/api/report/multi/:period` handler's cache logic: unless a force
refresh is requested, consult the memory tier, then the file tier
(repopulating the memory tier on a fresh file hit), and only then recompute
via the merger (`compute`); the computed report is written to the memory
tier. Returns the served report and the resulting memory cache. -/
def handleReport (mem : List (String × MemEntry D))
    (files : String → Option (Nat × D)) (key filePath : String) (now : Nat)
    (forceRefresh : Bool) (compute : D) : D × List (String × MemEntry D) :=
  if forceRefresh then (compute, setCache mem key compute now)
  else
    match getFromCache mem key now with
    | (some d, mem2) => (d, mem2)
    | (none, mem2) =>
      match getReportFromFile files filePath now with
      | some fd => (fd, setCache mem2 key fd now)
      | none => (compute, setCache mem2 key compute now)

/-- One row of `MultiRepoTracker.createLeaderboard`'s output. -/
structure LBEntry where
  username : String
  name : String
  commits : Nat
  additions : Nat
  deletions : Nat
  netLines : Int
  repoCount : Nat
  repositories : List String
deriving DecidableEq, Repr

/-- The comparator of `createLeaderboard` as a relation: `lbLE a b` iff the
JS comparator returns `≤ 0` on `(a, b)` — commits descending, then netLines
descending. -/
def lbLE (a b : LBEntry) : Prop :=
  b.commits < a.commits ∨ (b.commits = a.commits ∧ b.netLines ≤ a.netLines)

instance : DecidableRel lbLE := fun a b => by unfold lbLE; infer_instance

instance : IsTotal LBEntry lbLE :=
  ⟨fun a b => by unfold lbLE; omega⟩

instance : IsTrans LBEntry lbLE :=
  ⟨fun a b c hab hbc => by unfold lbLE at *; omega⟩

/-- The row built from one `Object.entries` pair of the aggregated map. -/
def toLBEntry (p : String × AggStat) : LBEntry :=
  ⟨p.1, p.2.name, p.2.commits, p.2.additions, p.2.deletions, p.2.netLines,
   p.2.repositories.length, p.2.repositories⟩

/-- `MultiRepoTracker.createLeaderboard(stats, topN)`: build one row per
entry of the stats object, sort by commits descending with netLines
descending as tiebreaker (`Array.prototype.sort` is stable; modelled as a
stable insertion sort), and return `topN ? leaderboard.slice(0, topN) :
leaderboard` — a falsy `topN` (absent or 0) returns the whole list. -/
def createLeaderboard (stats : List (String × AggStat)) (topN : Option Nat) :
    List LBEntry :=
  let sorted := List.insertionSort lbLE (stats.map toLBEntry)
  match topN with
  | none => sorted
  | some n => if n = 0 then sorted else sorted.take n

/-- `printAggregatedReport`'s partition of the full leaderboard into active
(`dev.commits > 0`) and inactive (`dev.commits === 0`) contributors. -/
def reportPartition (stats : List (String × AggStat)) :
    List LBEntry × List LBEntry :=
  let leaderboard := createLeaderboard stats none
  (leaderboard.filter (fun dev => 0 < dev.commits),
   leaderboard.filter (fun dev => dev.commits == 0))

/-- The (commitCount, additions, deletions, netLines) contribution of a
single analyzed commit to its author's accumulator. -/
def statsQuad (statsOf : String → Nat × Nat) (sha : String) :
    Nat × Nat × Nat × Int :=
  (1, (statsOf sha).1, (statsOf sha).2,
   ((statsOf sha).1 : Int) - ((statsOf sha).2 : Int))

/-- The numeric quadruple of a per-repository author record. -/
def devQuad (s : DevStat) : Nat × Nat × Nat × Int :=
  (s.commits, s.additions, s.deletions, s.netLines)

/-- The numeric contribution of one repository outcome to author `a`'s
aggregated totals: the sum of the repository's records under key `a` for a
successful aggregation, nothing for a failed one. -/
def repoContrib (a : String)
    (rp : String × Except Unit (List (String × DevStat))) :
    Nat × Nat × Nat × Int :=
  match rp.2 with
  | .ok stats => ((stats.filter (fun p => p.1 = a)).map (fun p => devQuad p.2)).sum
  | .error _ => (0, 0, 0, 0)

/-- The net-lines consistency invariant on a per-repository author record:
`netLines == additions - deletions`. -/
def devInv (s : DevStat) : Prop :=
  s.netLines = (s.additions : Int) - (s.deletions : Int)

instance : DecidablePred devInv := fun s => by unfold devInv; infer_instance

/-- The net-lines consistency invariant on an aggregated author record. -/
def aggInv (s : AggStat) : Prop :=
  s.netLines = (s.additions : Int) - (s.deletions : Int)

instance : DecidablePred aggInv := fun s => by unfold aggInv; infer_instance

/-- The stats object delivered by a repository outcome: the computed stats
on success, nothing on a caught failure. -/
def okStats (rp : String × Except Unit (List (String × DevStat))) :
    List (String × DevStat) :=
  match rp.2 with
  | .ok stats => stats
  | .error _ => []

/-- The aggregated-map component of one `aggStep` iteration: merge on
success, unchanged on a caught failure. -/
def mergeStep (agg : List (String × AggStat))
    (rp : String × Except Unit (List (String × DevStat))) :
    List (String × AggStat) :=
  match rp.2 with
  | .ok stats => mergeRepoStats rp.1 agg stats
  | .error _ => agg

/-- The `statsByRepo` component of one `aggStep` iteration: the computed
stats on success, the empty object on a caught failure. -/
def byRepoStep (b : List (String × List (String × DevStat)))
    (rp : String × Except Unit (List (String × DevStat))) :
    List (String × List (String × DevStat)) :=
  objSet b rp.1 (match rp.2 with | .ok stats => stats | .error _ => [])

/-! ### Concrete data used to exercise the definitions -/

/-- Scenario commit `c1` (author alice), reachable from both branches. -/
def demoC1 : Commit := ⟨"sha1", some "alice", "Alice", "alice@example.com"⟩

/-- Scenario commit `c2` (author alice), reachable only from `feature`. -/
def demoC2 : Commit := ⟨"sha2", some "alice", "Alice", "alice@example.com"⟩

/-- Scenario commit by bob. -/
def demoC3 : Commit := ⟨"sha3", some "bob", "Bob", "bob@example.com"⟩

/-- Concrete per-commit diff stats for the scenario commits. -/
def demoStatsOf : String → Nat × Nat :=
  fun s => if s = "sha1" then (10, 4) else if s = "sha2" then (3, 1)
    else if s = "sha3" then (7, 2) else (0, 0)

/-- A concrete one-repository stats object (repository `r1`). -/
def demoStatsR1 : List (String × DevStat) :=
  [("alice", ⟨2, 13, 5, 8, ["sha1", "sha2"], "alice@example.com", "Alice"⟩)]

/-- A concrete one-repository stats object (repository `r2`). -/
def demoStatsR2 : List (String × DevStat) :=
  [("bob", ⟨1, 7, 2, 5, ["sha3"], "bob@example.com", "Bob"⟩),
   ("alice", ⟨1, 3, 1, 2, ["sha4"], "alice@example.com", "Alice"⟩)]

/-- A concrete healthy origin: one organization repository `r1` with
contributors alice and carol, whose default branch carries the two scenario
commits by alice (carol has no commits in the window). -/
def demoOrigin : Origin where
  orgRepos := .ok [⟨"r1", "acme"⟩]
  userRepos := .ok []
  contributors := fun r => if r = "r1" then .ok ["alice", "carol"] else .ok []
  commits := fun r => if r = "r1" then .ok [demoC1, demoC2] else .ok []
  commitStats := fun _ sha => .ok (demoStatsOf sha)

/-- A concrete origin where repository `rA` fails (commit and contributor
listings error) while repository `rB` is healthy. -/
def demoPartialOrigin : Origin where
  orgRepos := .ok [⟨"rA", "acme"⟩, ⟨"rB", "acme"⟩]
  userRepos := .ok []
  contributors := fun r => if r = "rB" then .ok ["bob"] else .error .notFound
  commits := fun r => if r = "rB" then .ok [demoC3] else .error .transient
  commitStats := fun _ sha => .ok (demoStatsOf sha)

/-- The user-visible repositories of the auto-discovery fallback scenario:
five repositories, three of which belong (case-insensitively) to `Acme`. -/
def demoUserRepos : List RepoInfo :=
  [⟨"r1", "acme"⟩, ⟨"r2", "ACME"⟩, ⟨"r3", "Acme"⟩, ⟨"r4", "other"⟩,
   ⟨"r5", "Umbrella"⟩]

/-- A concrete origin whose organization listing fails with `NotFound` and
whose user listing returns `demoUserRepos`. -/
def demoFallbackOrigin : Origin where
  orgRepos := .error .notFound
  userRepos := .ok demoUserRepos
  contributors := fun _ => .ok []
  commits := fun _ => .ok []
  commitStats := fun _ _ => .ok (0, 0)

/-- A concrete successful repository outcome list (repository `r1`). -/
def demoPre : List (String × Except Unit (List (String × DevStat))) :=
  [("r1", Except.ok demoStatsR1)]

/-- A concrete successful repository outcome list (repository `r2`). -/
def demoPost : List (String × Except Unit (List (String × DevStat))) :=
  [("r2", Except.ok demoStatsR2)]

/-- A concrete aggregated map exercising the leaderboard tiebreaker: bob and
carol tie on commits, carol wins on net lines, alice trails. -/
def demoAggStats : List (String × AggStat) :=
  [("alice", ⟨2, 13, 5, 8, ["r1"], "alice@example.com", "Alice"⟩),
   ("bob", ⟨3, 7, 2, 5, ["r2"], "bob@example.com", "Bob"⟩),
   ("carol", ⟨3, 9, 1, 8, ["r1"], "", "carol"⟩)]

/-! ### Association-list (JS object) lemmas -/

theorem objGet_objSet_self (m : List (String × α)) (k : String) (v : α) :
    objGet (objSet m k v) k = some v := by
  induction m with
  | nil => simp [objSet, objGet]
  | cons p rest ih =>
    by_cases h : p.1 = k
    · simp [objSet, h, objGet]
    · simp [objSet, h, objGet, ih]

theorem objGet_objSet_ne (m : List (String × α)) {k k' : String} (v : α)
    (h : k' ≠ k) : objGet (objSet m k v) k' = objGet m k' := by
  induction m with
  | nil => simp [objSet, objGet, Ne.symm h]
  | cons p rest ih =>
    by_cases hp : p.1 = k
    · simp [objSet, hp, objGet, Ne.symm h]
    · simp [objSet, hp, objGet, ih]

theorem isSome_objGet_objSet (m : List (String × α)) (k a : String) (v : α) :
    (objGet (objSet m k v) a).isSome ↔ a = k ∨ (objGet m a).isSome := by
  by_cases h : a = k
  · subst h; simp [objGet_objSet_self]
  · simp [objGet_objSet_ne m v h, h]

theorem mem_of_objGet_eq_some {m : List (String × α)} {k : String} {v : α}
    (h : objGet m k = some v) : (k, v) ∈ m := by
  induction m with
  | nil => simp [objGet] at h
  | cons p rest ih =>
    obtain ⟨pk, pv⟩ := p
    by_cases hp : pk = k
    · subst hp
      simp [objGet] at h
      subst h
      exact List.mem_cons_self _ _
    · simp only [objGet] at h
      rw [if_neg hp] at h
      exact List.mem_cons_of_mem _ (ih h)

/-! ### Per-author fold lemmas for `analyzeCommits` -/

theorem devNums_nil (a : String) : devNums [] a = 0 := rfl

theorem devNums_analyzeStep (statsOf : String → Nat × Nat)
    (m : List (String × DevStat)) (c : Commit) (a : String) :
    devNums (analyzeStep statsOf m c) a =
      devNums m a + (if authorId c = a then statsQuad statsOf c.sha else 0) := by
  by_cases h : authorId c = a
  · subst h
    cases hg : objGet m (authorId c) with
    | none =>
      simp [analyzeStep, devNums, hg, objGet_objSet_self, statsQuad,
        Prod.mk_add_mk]
    | some s =>
      simp [analyzeStep, devNums, hg, objGet_objSet_self, statsQuad,
        Prod.mk_add_mk]
  · simp [analyzeStep, devNums, objGet_objSet_ne _ _ (Ne.symm h), h]

theorem devNums_foldl_analyzeStep (statsOf : String → Nat × Nat)
    (cs : List Commit) (m : List (String × DevStat)) (a : String) :
    devNums (cs.foldl (analyzeStep statsOf) m) a =
      devNums m a + ((cs.filter (fun c => authorId c = a)).map
        (fun c => statsQuad statsOf c.sha)).sum := by
  induction cs generalizing m with
  | nil => simp
  | cons c cs ih =>
    rw [List.foldl_cons, ih, devNums_analyzeStep]
    by_cases h : authorId c = a
    · simp [h, List.filter_cons, add_assoc]
    · simp [h, List.filter_cons]

theorem devNums_analyzeCommits (statsOf : String → Nat × Nat)
    (cs : List Commit) (a : String) :
    devNums (analyzeCommits statsOf cs) a =
      ((cs.filter (fun c => authorId c = a)).map
        (fun c => statsQuad statsOf c.sha)).sum := by
  unfold analyzeCommits
  rw [devNums_foldl_analyzeStep, devNums_nil, zero_add]

theorem devCommits_eq_fst (m : List (String × DevStat)) (a : String) :
    devCommits m a = (devNums m a).1 := by
  cases hg : objGet m a <;> simp [devCommits, devNums, hg]

theorem fst_sum_quads (l : List (Nat × Nat × Nat × Int)) :
    l.sum.1 = (l.map (·.1)).sum := by
  induction l with
  | nil => rfl
  | cons x l ih => simp [List.sum_cons, ih]

theorem devCommits_analyzeCommits (statsOf : String → Nat × Nat)
    (cs : List Commit) (a : String) :
    devCommits (analyzeCommits statsOf cs) a =
      (cs.filter (fun c => authorId c = a)).length := by
  rw [devCommits_eq_fst, devNums_analyzeCommits, fst_sum_quads]
  induction cs.filter (fun c => authorId c = a) with
  | nil => rfl
  | cons c l ih =>
    simp only [List.map_cons, List.sum_cons, List.length_cons, ← ih]
    simp [statsQuad]
    omega

/-! ### Dedup lemmas for `getCommitsInRange` -/

theorem mem_insertUnique_elim {acc : List Commit} {c d : Commit}
    (h : d ∈ insertUnique acc c) : d ∈ acc ∨ d = c := by
  unfold insertUnique at h
  by_cases ha : acc.any (fun e => e.sha == c.sha)
  · rw [if_pos ha] at h; exact Or.inl h
  · rw [if_neg ha] at h
    rcases List.mem_append.mp h with h' | h'
    · exact Or.inl h'
    · exact Or.inr (List.mem_singleton.mp h')

theorem sha_mem_insertUnique (acc : List Commit) (c : Commit) (s : String) :
    s ∈ (insertUnique acc c).map (·.sha) ↔
      s ∈ acc.map (·.sha) ∨ s = c.sha := by
  unfold insertUnique
  by_cases ha : acc.any (fun e => e.sha == c.sha)
  · rw [if_pos ha]
    rcases List.any_eq_true.mp ha with ⟨e, he, hsha⟩
    constructor
    · exact Or.inl
    · rintro (h | rfl)
      · exact h
      · exact List.mem_map.mpr ⟨e, he, beq_iff_eq.mp hsha⟩
  · rw [if_neg ha]; simp

theorem nodup_shas_insertUnique {acc : List Commit} (c : Commit)
    (h : (acc.map (·.sha)).Nodup) :
    ((insertUnique acc c).map (·.sha)).Nodup := by
  unfold insertUnique
  by_cases ha : acc.any (fun e => e.sha == c.sha)
  · rwa [if_pos ha]
  · rw [if_neg ha]
    have hnot : c.sha ∉ acc.map (·.sha) := by
      intro hmem
      rcases List.mem_map.mp hmem with ⟨e, he, hes⟩
      exact ha (List.any_eq_true.mpr ⟨e, he, beq_iff_eq.mpr hes⟩)
    simp only [List.map_append, List.map_cons, List.map_nil]
    exact List.Nodup.append h (List.nodup_singleton _)
      (List.disjoint_singleton.mpr hnot)

theorem nodup_shas_foldl_insertUnique (cs : List Commit) :
    ∀ acc : List Commit, (acc.map (·.sha)).Nodup →
      ((cs.foldl insertUnique acc).map (·.sha)).Nodup := by
  induction cs with
  | nil => exact fun acc h => h
  | cons c cs ih =>
    intro acc h
    exact ih _ (nodup_shas_insertUnique c h)

theorem sha_mem_foldl_insertUnique (cs : List Commit) :
    ∀ (acc : List Commit) (s : String),
      s ∈ (cs.foldl insertUnique acc).map (·.sha) ↔
        s ∈ acc.map (·.sha) ∨ s ∈ cs.map (·.sha) := by
  induction cs with
  | nil => simp
  | cons c cs ih =>
    intro acc s
    rw [List.foldl_cons, ih, sha_mem_insertUnique, List.map_cons, List.mem_cons]
    tauto

theorem mem_foldl_insertUnique (cs : List Commit) :
    ∀ (acc : List Commit),
      (∀ x ∈ acc ++ cs, ∀ y ∈ acc ++ cs, x.sha = y.sha → x = y) →
      ∀ d : Commit, d ∈ cs.foldl insertUnique acc ↔ d ∈ acc ∨ d ∈ cs := by
  induction cs with
  | nil => simp
  | cons c cs ih =>
    intro acc hcoh d
    rw [List.foldl_cons]
    have hsub : ∀ x ∈ insertUnique acc c, x ∈ acc ++ c :: cs := by
      intro x hx
      rcases mem_insertUnique_elim hx with h | rfl
      · exact List.mem_append_left _ h
      · exact List.mem_append_right _ (List.mem_cons_self _ _)
    have hcoh' : ∀ x ∈ insertUnique acc c ++ cs, ∀ y ∈ insertUnique acc c ++ cs,
        x.sha = y.sha → x = y := by
      intro x hx y hy
      have hx' : x ∈ acc ++ c :: cs := by
        rcases List.mem_append.mp hx with h | h
        · exact hsub x h
        · exact List.mem_append_right _ (List.mem_cons_of_mem _ h)
      have hy' : y ∈ acc ++ c :: cs := by
        rcases List.mem_append.mp hy with h | h
        · exact hsub y h
        · exact List.mem_append_right _ (List.mem_cons_of_mem _ h)
      exact hcoh x hx' y hy'
    rw [ih _ hcoh']
    have hins : d ∈ insertUnique acc c ↔ d ∈ acc ∨ d = c := by
      unfold insertUnique
      by_cases ha : acc.any (fun e => e.sha == c.sha)
      · rw [if_pos ha]
        rcases List.any_eq_true.mp ha with ⟨e, he, hsha⟩
        have hec : e = c := hcoh e (List.mem_append_left _ he) c
          (List.mem_append_right _ (List.mem_cons_self _ _)) (beq_iff_eq.mp hsha)
        constructor
        · exact Or.inl
        · rintro (h | rfl)
          · exact h
          · exact hec ▸ he
      · rw [if_neg ha]; simp
    rw [hins, List.mem_cons]
    tauto

/-! ### C1 -/

/-- C1: In the all-branches single-repository aggregation, a commit reachable
from several branches is counted exactly once. Provided commits are
determined by their SHA across the fetched branch lists (`hcoh`), the
SHA-deduplicated commit list of `getCommitsInRange` contains every reachable
commit exactly once and nothing else, and `analyzeCommits` then records for
each author a commitCount equal to the number of deduplicated commits they
authored, with one additions/deletions/netLines contribution per such
commit. -/
theorem dedup_counts_each_commit_once (branches : List (List Commit))
    (statsOf : String → Nat × Nat)
    (hcoh : ∀ x ∈ branches.flatten, ∀ y ∈ branches.flatten,
      x.sha = y.sha → x = y) :
    (∀ c ∈ branches.flatten, (getCommitsInRange branches).count c = 1) ∧
    (∀ c ∈ getCommitsInRange branches, c ∈ branches.flatten) ∧
    (∀ a : String,
      devCommits (analyzeCommits statsOf (getCommitsInRange branches)) a =
        ((getCommitsInRange branches).filter
          (fun c => authorId c = a)).length) ∧
    (∀ a : String,
      devNums (analyzeCommits statsOf (getCommitsInRange branches)) a =
        (((getCommitsInRange branches).filter (fun c => authorId c = a)).map
          (fun c => statsQuad statsOf c.sha)).sum) := by
  have hcoh' : ∀ x ∈ ([] : List Commit) ++ branches.flatten,
      ∀ y ∈ ([] : List Commit) ++ branches.flatten, x.sha = y.sha → x = y := by
    simpa using hcoh
  have hmem : ∀ d : Commit, d ∈ getCommitsInRange branches ↔
      d ∈ branches.flatten := by
    intro d
    have := mem_foldl_insertUnique branches.flatten [] hcoh' d
    simpa [getCommitsInRange, dedupeBySha] using this
  have hnodup : (getCommitsInRange branches).Nodup := by
    have := nodup_shas_foldl_insertUnique branches.flatten [] (by simp)
    exact List.Nodup.of_map _ (by simpa [getCommitsInRange, dedupeBySha] using this)
  refine ⟨?_, ?_, ?_, ?_⟩
  · intro c hc
    exact List.count_eq_one_of_mem hnodup ((hmem c).mpr hc)
  · intro c hc
    exact (hmem c).mp hc
  · intro a
    exact devCommits_analyzeCommits statsOf _ a
  · intro a
    exact devNums_analyzeCommits statsOf _ a

/-- C1 witness: repo with branches `main = [c1]` and `feature = [c1, c2]`,
both commits by alice; the coherence hypothesis holds and alice's
commitCount is 2, not 3. -/
theorem dedup_counts_each_commit_once_witness :
    (∀ x ∈ [[demoC1], [demoC1, demoC2]].flatten,
      ∀ y ∈ [[demoC1], [demoC1, demoC2]].flatten, x.sha = y.sha → x = y) ∧
    devCommits
      (analyzeCommits demoStatsOf (getCommitsInRange [[demoC1], [demoC1, demoC2]]))
      "alice" = 2 :=
  ⟨by decide, by
    have h := dedup_counts_each_commit_once [[demoC1], [demoC1, demoC2]]
      demoStatsOf (by decide)
    rw [h.2.2.1 "alice"]
    decide⟩

/-! ### Aggregation-loop decomposition lemmas -/

theorem aggStep_eq (st : List (String × AggStat) × List (String × List (String × DevStat)))
    (rp : String × Except Unit (List (String × DevStat))) :
    aggStep st rp = (mergeStep st.1 rp, byRepoStep st.2 rp) := by
  cases h : rp.2 <;> simp [aggStep, mergeStep, byRepoStep, h]

theorem foldl_aggStep_eq
    (rs : List (String × Except Unit (List (String × DevStat)))) :
    ∀ (a : List (String × AggStat))
      (b : List (String × List (String × DevStat))),
      rs.foldl aggStep (a, b) = (rs.foldl mergeStep a, rs.foldl byRepoStep b) := by
  induction rs with
  | nil => intro a b; rfl
  | cons rp rs ih =>
    intro a b
    rw [List.foldl_cons, aggStep_eq, ih, List.foldl_cons, List.foldl_cons]

theorem aggregateLoop_eq (roster : List String)
    (rs : List (String × Except Unit (List (String × DevStat)))) :
    aggregateLoop roster rs =
      ⟨rs.foldl mergeStep (initAgg roster), rs.foldl byRepoStep [], roster⟩ := by
  unfold aggregateLoop
  rw [foldl_aggStep_eq]

theorem objGet_foldl_byRepoStep
    (rs : List (String × Except Unit (List (String × DevStat))))
    {r : String} (hr : r ∉ rs.map (·.1)) :
    ∀ b, objGet (rs.foldl byRepoStep b) r = objGet b r := by
  induction rs with
  | nil => intro b; rfl
  | cons rp rs ih =>
    intro b
    rw [List.map_cons, List.mem_cons] at hr
    push_neg at hr
    rw [List.foldl_cons, ih hr.2]
    exact objGet_objSet_ne _ _ hr.1

/-! ### C2 -/

/-- C2: a repository whose aggregation throws during the cross-repository
loop does not abort `aggregateStats`: the failing repository is recorded in
the `byRepo` breakdown with an empty result, the aggregated per-author map
is exactly the one of a run over the remaining repositories alone (with the
same roster, which is computed before the loop), and the roster is returned
unchanged — the failure never escapes as a request-level error (the loop is
a total function on the per-repository outcomes). -/
theorem failed_repo_absorbed (roster : List String)
    (pre post : List (String × Except Unit (List (String × DevStat))))
    (r : String) (e : Unit) (hpost : r ∉ post.map (·.1)) :
    (aggregateLoop roster (pre ++ (r, Except.error e) :: post)).aggregated =
      (aggregateLoop roster (pre ++ post)).aggregated ∧
    objGet (aggregateLoop roster (pre ++ (r, Except.error e) :: post)).byRepo r =
      some [] ∧
    (aggregateLoop roster (pre ++ (r, Except.error e) :: post)).allContributors =
      roster := by
  rw [aggregateLoop_eq, aggregateLoop_eq]
  refine ⟨?_, ?_, rfl⟩
  · simp only [List.foldl_append, List.foldl_cons]
    rfl
  · simp only [List.foldl_append, List.foldl_cons]
    rw [objGet_foldl_byRepoStep post hpost]
    simp only [byRepoStep]
    exact objGet_objSet_self _ _ _

/-- C2 witness: with roster (alice, bob), repository `r1` succeeding,
repository `rX` throwing and repository `r2` succeeding, the failing
repository is recorded empty and the aggregated map equals the run over
`r1` and `r2` alone. -/
theorem failed_repo_absorbed_witness :
    ("rX" ∉ demoPost.map (·.1)) ∧
    ((aggregateLoop ["alice", "bob"]
        (demoPre ++ ("rX", Except.error ()) :: demoPost)).aggregated =
      (aggregateLoop ["alice", "bob"] (demoPre ++ demoPost)).aggregated ∧
     objGet (aggregateLoop ["alice", "bob"]
        (demoPre ++ ("rX", Except.error ()) :: demoPost)).byRepo "rX" =
       some [] ∧
     (aggregateLoop ["alice", "bob"]
        (demoPre ++ ("rX", Except.error ()) :: demoPost)).allContributors =
       ["alice", "bob"]) :=
  ⟨by decide,
   failed_repo_absorbed ["alice", "bob"] demoPre demoPost "rX" () (by decide)⟩

/-! ### Aggregated-map fold lemmas -/

theorem quad_zero : ((0, 0, 0, 0) : Nat × Nat × Nat × Int) = 0 := rfl

theorem aggNums_initAgg_aux (roster : List String) :
    ∀ (m : List (String × AggStat)), (∀ b, aggNums m b = 0) →
      ∀ a, aggNums
        (roster.foldl (fun m c => objSet m c ⟨0, 0, 0, 0, [], "", c⟩) m) a = 0 := by
  induction roster with
  | nil => exact fun m h => h
  | cons c roster ih =>
    intro m h a
    refine ih _ (fun b => ?_) a
    by_cases hb : b = c
    · subst hb
      unfold aggNums
      rw [objGet_objSet_self]
      rfl
    · have hne : aggNums (objSet m c ⟨0, 0, 0, 0, [], "", c⟩) b = aggNums m b := by
        unfold aggNums
        rw [objGet_objSet_ne _ _ hb]
      rw [hne]
      exact h b

theorem aggNums_initAgg (roster : List String) (a : String) :
    aggNums (initAgg roster) a = 0 :=
  aggNums_initAgg_aux roster [] (fun _ => rfl) a

theorem aggNums_mergeDev (repo : String) (agg : List (String × AggStat))
    (k : String) (d : DevStat) (a : String) :
    aggNums (mergeDev repo agg k d) a =
      aggNums agg a + (if k = a then devQuad d else 0) := by
  by_cases h : k = a
  · subst h
    cases hg : objGet agg k with
    | none =>
      simp [mergeDev, aggNums, hg, objGet_objSet_self, devQuad, Prod.mk_add_mk]
    | some s =>
      simp [mergeDev, aggNums, hg, objGet_objSet_self, devQuad, Prod.mk_add_mk]
  · simp [mergeDev, aggNums, objGet_objSet_ne _ _ (Ne.symm h), h]

theorem aggNums_mergeRepoStats (repo : String) (stats : List (String × DevStat)) :
    ∀ (agg : List (String × AggStat)) (a : String),
      aggNums (mergeRepoStats repo agg stats) a =
        aggNums agg a +
          ((stats.filter (fun p => p.1 = a)).map (fun p => devQuad p.2)).sum := by
  induction stats with
  | nil => intro agg a; simp [mergeRepoStats]
  | cons p stats ih =>
    intro agg a
    rw [show mergeRepoStats repo agg (p :: stats) =
      mergeRepoStats repo (mergeDev repo agg p.1 p.2) stats from rfl]
    rw [ih, aggNums_mergeDev]
    by_cases h : p.1 = a
    · simp [h, List.filter_cons, add_assoc]
    · simp [h, List.filter_cons]

theorem aggNums_foldl_mergeStep
    (rs : List (String × Except Unit (List (String × DevStat)))) :
    ∀ (agg : List (String × AggStat)) (a : String),
      aggNums (rs.foldl mergeStep agg) a =
        aggNums agg a + (rs.map (repoContrib a)).sum := by
  induction rs with
  | nil => intro agg a; simp
  | cons rp rs ih =>
    intro agg a
    rw [List.foldl_cons, ih]
    cases hrp : rp.2 with
    | ok stats =>
      rw [show mergeStep agg rp = mergeRepoStats rp.1 agg stats by
        simp [mergeStep, hrp]]
      rw [aggNums_mergeRepoStats]
      simp [repoContrib, hrp, add_assoc]
    | error e =>
      rw [show mergeStep agg rp = agg by simp [mergeStep, hrp]]
      simp [repoContrib, hrp, quad_zero]

theorem isSome_mergeDev (repo : String) (agg : List (String × AggStat))
    (k : String) (d : DevStat) (a : String) :
    (objGet (mergeDev repo agg k d) a).isSome ↔
      a = k ∨ (objGet agg a).isSome := by
  simp [mergeDev, isSome_objGet_objSet]

theorem isSome_mergeRepoStats (repo : String) (stats : List (String × DevStat)) :
    ∀ (agg : List (String × AggStat)) (a : String),
      (objGet (mergeRepoStats repo agg stats) a).isSome ↔
        (objGet agg a).isSome ∨ a ∈ stats.map (·.1) := by
  induction stats with
  | nil => intro agg a; simp [mergeRepoStats]
  | cons p stats ih =>
    intro agg a
    rw [show mergeRepoStats repo agg (p :: stats) =
      mergeRepoStats repo (mergeDev repo agg p.1 p.2) stats from rfl]
    rw [ih, isSome_mergeDev, List.map_cons, List.mem_cons]
    tauto

theorem isSome_foldl_mergeStep
    (rs : List (String × Except Unit (List (String × DevStat)))) :
    ∀ (agg : List (String × AggStat)) (a : String),
      (objGet (rs.foldl mergeStep agg) a).isSome ↔
        (objGet agg a).isSome ∨ ∃ rp ∈ rs, a ∈ (okStats rp).map (·.1) := by
  induction rs with
  | nil => intro agg a; simp
  | cons rp rs ih =>
    intro agg a
    rw [List.foldl_cons, ih]
    cases hrp : rp.2 with
    | ok stats =>
      rw [show mergeStep agg rp = mergeRepoStats rp.1 agg stats by
        simp [mergeStep, hrp]]
      rw [isSome_mergeRepoStats]
      simp only [List.mem_cons, exists_eq_or_imp, okStats, hrp]
      tauto
    | error e =>
      rw [show mergeStep agg rp = agg by simp [mergeStep, hrp]]
      simp only [List.mem_cons, exists_eq_or_imp, okStats, hrp, List.map_nil,
        List.not_mem_nil, false_or]

theorem isSome_initAgg_aux (roster : List String) :
    ∀ (m : List (String × AggStat)) (a : String),
      (objGet (roster.foldl (fun m c => objSet m c ⟨0, 0, 0, 0, [], "", c⟩) m) a).isSome ↔
        a ∈ roster ∨ (objGet m a).isSome := by
  induction roster with
  | nil => intro m a; simp
  | cons c roster ih =>
    intro m a
    rw [List.foldl_cons, ih, isSome_objGet_objSet, List.mem_cons]
    tauto

theorem isSome_initAgg (roster : List String) (a : String) :
    (objGet (initAgg roster) a).isSome ↔ a ∈ roster := by
  have h := isSome_initAgg_aux roster [] a
  simpa [objGet] using h

theorem mem_getCommitsInRange {branches : List (List Commit)}
    (hcoh : ∀ x ∈ branches.flatten, ∀ y ∈ branches.flatten,
      x.sha = y.sha → x = y) (d : Commit) :
    d ∈ getCommitsInRange branches ↔ d ∈ branches.flatten := by
  have hcoh' : ∀ x ∈ ([] : List Commit) ++ branches.flatten,
      ∀ y ∈ ([] : List Commit) ++ branches.flatten, x.sha = y.sha → x = y := by
    simpa using hcoh
  have h := mem_foldl_insertUnique branches.flatten [] hcoh' d
  simpa [getCommitsInRange, dedupeBySha] using h

theorem nodup_getCommitsInRange (branches : List (List Commit)) :
    (getCommitsInRange branches).Nodup := by
  have h := nodup_shas_foldl_insertUnique branches.flatten [] (by simp)
  exact List.Nodup.of_map _ (by simpa [getCommitsInRange, dedupeBySha] using h)

/-! ### C3 -/

/-- C3: merging the per-repository results in any permutation of repository
order yields identical aggregated totals: for every author, the aggregated
commits/additions/deletions/netLines quadruple and the author's presence in
the aggregated map are invariant under permuting the repository outcomes;
and, for the single-repository all-branches fold, the per-author numeric
totals are likewise invariant under permuting the branch lists (commits
being determined by their SHA). -/
theorem merge_order_invariant (roster : List String)
    (rs rs' : List (String × Except Unit (List (String × DevStat))))
    (hperm : rs.Perm rs') :
    (∀ a, aggNums (aggregateLoop roster rs).aggregated a =
      aggNums (aggregateLoop roster rs').aggregated a) ∧
    (∀ a, (objGet (aggregateLoop roster rs).aggregated a).isSome ↔
      (objGet (aggregateLoop roster rs').aggregated a).isSome) ∧
    (∀ (statsOf : String → Nat × Nat) (bs bs' : List (List Commit)),
      bs.Perm bs' →
      (∀ x ∈ bs.flatten, ∀ y ∈ bs.flatten, x.sha = y.sha → x = y) →
      ∀ a, devNums (analyzeCommits statsOf (getCommitsInRange bs)) a =
        devNums (analyzeCommits statsOf (getCommitsInRange bs')) a) := by
  refine ⟨?_, ?_, ?_⟩
  · intro a
    rw [aggregateLoop_eq, aggregateLoop_eq]
    simp only
    rw [aggNums_foldl_mergeStep, aggNums_foldl_mergeStep]
    congr 1
    exact List.Perm.sum_eq (hperm.map _)
  · intro a
    rw [aggregateLoop_eq, aggregateLoop_eq]
    simp only
    rw [isSome_foldl_mergeStep, isSome_foldl_mergeStep]
    exact or_congr Iff.rfl
      ⟨fun ⟨x, hx, h⟩ => ⟨x, hperm.mem_iff.mp hx, h⟩,
       fun ⟨x, hx, h⟩ => ⟨x, hperm.mem_iff.mpr hx, h⟩⟩
  · intro statsOf bs bs2 hp hcoh a
    have hcoh2 : ∀ x ∈ bs2.flatten, ∀ y ∈ bs2.flatten, x.sha = y.sha → x = y := by
      intro x hx y hy
      exact hcoh x (hp.flatten.mem_iff.mpr hx) y (hp.flatten.mem_iff.mpr hy)
    have hdp : (getCommitsInRange bs).Perm (getCommitsInRange bs2) := by
      refine (List.perm_ext_iff_of_nodup (nodup_getCommitsInRange bs)
        (nodup_getCommitsInRange bs2)).mpr (fun d => ?_)
      rw [mem_getCommitsInRange hcoh d, mem_getCommitsInRange hcoh2 d]
      exact hp.flatten.mem_iff
    rw [devNums_analyzeCommits, devNums_analyzeCommits]
    exact List.Perm.sum_eq ((hdp.filter _).map _)

/-- C3 witness: swapping the two successful repositories `r1`, `r2` leaves
alice's aggregated quadruple and presence unchanged, and swapping the two
branch lists of the C1 scenario leaves alice's single-repository totals
unchanged. -/
theorem merge_order_invariant_witness :
    (demoPre ++ demoPost).Perm (demoPost ++ demoPre) ∧
    aggNums (aggregateLoop ["alice", "bob"] (demoPre ++ demoPost)).aggregated
        "alice" =
      aggNums (aggregateLoop ["alice", "bob"] (demoPost ++ demoPre)).aggregated
        "alice" ∧
    devNums (analyzeCommits demoStatsOf
        (getCommitsInRange [[demoC1], [demoC1, demoC2]])) "alice" =
      devNums (analyzeCommits demoStatsOf
        (getCommitsInRange [[demoC1, demoC2], [demoC1]])) "alice" := by
  have hperm : (demoPre ++ demoPost).Perm (demoPost ++ demoPre) :=
    List.perm_append_comm
  have h := merge_order_invariant ["alice", "bob"] _ _ hperm
  exact ⟨hperm, h.1 "alice",
    h.2.2 demoStatsOf _ _ (List.Perm.swap [demoC1, demoC2] [demoC1] [])
      (by decide) "alice"⟩

/-! ### C4 -/

theorem objGet_objSet_cases {m : List (String × α)} {k a : String} {v s : α}
    (h : objGet (objSet m k v) a = some s) :
    (a = k ∧ s = v) ∨ objGet m a = some s := by
  by_cases hk : a = k
  · subst hk
    rw [objGet_objSet_self] at h
    exact Or.inl ⟨rfl, (Option.some_inj.mp h).symm⟩
  · rw [objGet_objSet_ne _ _ hk] at h
    exact Or.inr h

theorem devInv_foldl_analyzeStep (statsOf : String → Nat × Nat)
    (cs : List Commit) :
    ∀ m : List (String × DevStat), (∀ a s, objGet m a = some s → devInv s) →
      ∀ a s, objGet (cs.foldl (analyzeStep statsOf) m) a = some s → devInv s := by
  induction cs with
  | nil => exact fun m h => h
  | cons c cs ih =>
    intro m h
    refine ih _ (fun a s hget => ?_)
    have hcur : devInv ((objGet m (authorId c)).getD
        ⟨0, 0, 0, 0, [], authorEmailOf c, authorNameOf c⟩) := by
      cases hg : objGet m (authorId c) with
      | none => simp [devInv]
      | some s0 => simpa using h _ s0 hg
    rcases objGet_objSet_cases (by simpa [analyzeStep] using hget) with ⟨_, rfl⟩ | hin
    · unfold devInv at hcur ⊢
      simp only
      push_cast
      omega
    · exact h a s hin

theorem aggInv_initAgg (roster : List String) :
    ∀ a s, objGet (initAgg roster) a = some s → aggInv s := by
  suffices h : ∀ (m : List (String × AggStat)),
      (∀ a s, objGet m a = some s → aggInv s) →
      ∀ a s, objGet (roster.foldl
        (fun m c => objSet m c ⟨0, 0, 0, 0, [], "", c⟩) m) a = some s → aggInv s by
    exact h [] (fun a s hs => by simp [objGet] at hs)
  induction roster with
  | nil => exact fun m h => h
  | cons c roster ih =>
    intro m h
    refine ih _ (fun a s hget => ?_)
    rcases objGet_objSet_cases hget with ⟨_, rfl⟩ | hin
    · simp [aggInv]
    · exact h a s hin

theorem aggInv_mergeRepoStats (repo : String) (stats : List (String × DevStat)) :
    ∀ agg : List (String × AggStat), (∀ p ∈ stats, devInv p.2) →
      (∀ a s, objGet agg a = some s → aggInv s) →
      ∀ a s, objGet (mergeRepoStats repo agg stats) a = some s → aggInv s := by
  induction stats with
  | nil => exact fun agg _ h => h
  | cons p stats ih =>
    intro agg hstats h
    refine ih _ (fun q hq => hstats q (List.mem_cons_of_mem _ hq))
      (fun a s hget => ?_)
    have hd : devInv p.2 := hstats p (List.mem_cons_self _ _)
    have hcur : aggInv ((objGet agg p.1).getD
        ⟨0, 0, 0, 0, [], p.2.email, p.2.name⟩) := by
      cases hg : objGet agg p.1 with
      | none => simp [aggInv]
      | some s0 => simpa using h _ s0 hg
    rcases objGet_objSet_cases (by simpa [mergeDev] using hget) with ⟨_, rfl⟩ | hin
    · unfold aggInv at hcur ⊢
      unfold devInv at hd
      simp only
      push_cast
      omega
    · exact h a s hin

theorem aggInv_foldl_mergeStep
    (rs : List (String × Except Unit (List (String × DevStat))))
    (hrs : ∀ rp ∈ rs, ∀ p ∈ okStats rp, devInv p.2) :
    ∀ agg : List (String × AggStat),
      (∀ a s, objGet agg a = some s → aggInv s) →
      ∀ a s, objGet (rs.foldl mergeStep agg) a = some s → aggInv s := by
  induction rs with
  | nil => exact fun agg h => h
  | cons rp rs ih =>
    intro agg hagg
    rw [List.foldl_cons]
    refine ih (fun q hq => hrs q (List.mem_cons_of_mem _ hq)) _ ?_
    cases hrp : rp.2 with
    | ok stats =>
      rw [show mergeStep agg rp = mergeRepoStats rp.1 agg stats by
        simp [mergeStep, hrp]]
      refine aggInv_mergeRepoStats rp.1 stats agg (fun p hp => ?_) hagg
      exact hrs rp (List.mem_cons_self _ _) p (by simpa [okStats, hrp] using hp)
    | error e =>
      rw [show mergeStep agg rp = agg by simp [mergeStep, hrp]]
      exact hagg

/-- C4: `netLines == additions - deletions` holds for every author record at
every step of the single-repository fold (the fold over any commit list, so
in particular over every prefix) and for every record of the cross-repository
aggregated map, provided every per-repository record being merged satisfies
it — the quantity can never drift from the difference. -/
theorem netLines_consistency :
    (∀ (statsOf : String → Nat × Nat) (cs : List Commit) (a : String)
      (s : DevStat), objGet (analyzeCommits statsOf cs) a = some s → devInv s) ∧
    (∀ (roster : List String)
      (rs : List (String × Except Unit (List (String × DevStat)))),
      (∀ rp ∈ rs, ∀ p ∈ okStats rp, devInv p.2) →
      ∀ a s, objGet (aggregateLoop roster rs).aggregated a = some s →
        aggInv s) := by
  constructor
  · intro statsOf cs a s h
    exact devInv_foldl_analyzeStep statsOf cs []
      (fun a s hs => by simp [objGet] at hs) a s h
  · intro roster rs hrs
    rw [aggregateLoop_eq]
    simp only
    exact aggInv_foldl_mergeStep rs hrs (initAgg roster) (aggInv_initAgg roster)

/-- C4 witness: alice's record after analyzing the scenario commits and her
aggregated record after merging repository `r1` both satisfy
`netLines = additions - deletions`. -/
theorem netLines_consistency_witness :
    (objGet (analyzeCommits demoStatsOf [demoC1, demoC2]) "alice" =
      some ⟨2, 13, 5, 8, ["sha1", "sha2"], "alice@example.com", "Alice"⟩) ∧
    devInv ⟨2, 13, 5, 8, ["sha1", "sha2"], "alice@example.com", "Alice"⟩ ∧
    (∀ rp ∈ demoPre, ∀ p ∈ okStats rp, devInv p.2) ∧
    (objGet (aggregateLoop ["alice"] demoPre).aggregated "alice" =
      some ⟨2, 13, 5, 8, ["r1"], "alice@example.com", "Alice"⟩) ∧
    aggInv ⟨2, 13, 5, 8, ["r1"], "alice@example.com", "Alice"⟩ :=
  ⟨by decide,
   netLines_consistency.1 demoStatsOf [demoC1, demoC2] "alice" _ (by decide),
   by decide,
   by decide,
   netLines_consistency.2 ["alice"] demoPre (by decide) "alice" _ (by decide)⟩

/-! ### C5 -/

/-- C5: every contributor returned by the contributor listings over the
repositories in scope is a key of the final aggregated author map with
commitCount ≥ 0 (the roster initialisation guarantees presence even with no
activity); and the report's active/inactive partition is exactly the split
of the full leaderboard by `commits > 0` versus `commits == 0`, so any
aggregated author with zero commits — in particular any roster member never
seen in a per-repository result — appears in the inactive partition. -/
theorem roster_completeness (o : Origin) (orgName : Option String)
    (repositories : Option (List String)) :
    (∀ c, c ∈ getAllContributors o orgName repositories →
      ∃ s, objGet (aggregateStats o orgName repositories).aggregated c =
        some s ∧ 0 ≤ s.commits) ∧
    (∀ (stats : List (String × AggStat)) (e : LBEntry),
      (e ∈ (reportPartition stats).1 ↔
        e ∈ createLeaderboard stats none ∧ 0 < e.commits) ∧
      (e ∈ (reportPartition stats).2 ↔
        e ∈ createLeaderboard stats none ∧ e.commits = 0)) ∧
    (∀ (stats : List (String × AggStat)) (c : String) (s : AggStat),
      objGet stats c = some s → s.commits = 0 →
      ∃ e ∈ (reportPartition stats).2, e.username = c) := by
  refine ⟨?_, ?_, ?_⟩
  · intro c hc
    simp only [aggregateStats]
    by_cases hlen : (repositories.getD (getAllRepositories o orgName)).length = 0
    · exfalso
      have hnil : repositories.getD (getAllRepositories o orgName) = [] :=
        List.length_eq_zero.mp hlen
      rw [getAllContributors, hnil] at hc
      simp at hc
    · rw [if_neg hlen]
      have hpres : (objGet (aggregateLoop
          (getAllContributors o orgName repositories)
          ((repositories.getD (getAllRepositories o orgName)).map
            (fun r => (r, Except.ok (analyzeRepoCommits o r))))).aggregated
          c).isSome := by
        rw [aggregateLoop_eq]
        simp only
        rw [isSome_foldl_mergeStep]
        exact Or.inl ((isSome_initAgg _ c).mpr hc)
      rcases Option.isSome_iff_exists.mp hpres with ⟨s, hs⟩
      exact ⟨s, hs, Nat.zero_le _⟩
  · intro stats e
    constructor
    · simp [reportPartition, List.mem_filter]
    · simp [reportPartition, List.mem_filter]
  · intro stats c s hget h0
    have hmem : (c, s) ∈ stats := mem_of_objGet_eq_some hget
    have hsort : toLBEntry (c, s) ∈
        List.insertionSort lbLE (stats.map toLBEntry) :=
      (List.mem_insertionSort lbLE).mpr (List.mem_map_of_mem _ hmem)
    refine ⟨toLBEntry (c, s), ?_, rfl⟩
    have hlb : toLBEntry (c, s) ∈ createLeaderboard stats none := by
      simpa [createLeaderboard] using hsort
    have hc0 : ((toLBEntry (c, s)).commits == 0) = true := by
      simp [toLBEntry, h0]
    simp only [reportPartition]
    rw [List.mem_filter]
    exact ⟨hlb, hc0⟩

/-- C5 witness: carol is a contributor of `r1` with no commits in the
window; she is a key of the aggregated map (with her zeroed record) and
appears in the inactive partition of the report. -/
theorem roster_completeness_witness :
    ("carol" ∈ getAllContributors demoOrigin (some "acme") none) ∧
    (∃ s, objGet (aggregateStats demoOrigin (some "acme") none).aggregated
      "carol" = some s ∧ 0 ≤ s.commits) ∧
    (objGet (aggregateStats demoOrigin (some "acme") none).aggregated
      "carol" = some ⟨0, 0, 0, 0, [], "", "carol"⟩) ∧
    (∃ e ∈ (reportPartition
      (aggregateStats demoOrigin (some "acme") none).aggregated).2,
      e.username = "carol") :=
  ⟨by decide,
   (roster_completeness demoOrigin (some "acme") none).1 "carol" (by decide),
   by decide,
   (roster_completeness demoOrigin (some "acme") none).2.2 _ "carol"
     ⟨0, 0, 0, 0, [], "", "carol"⟩ (by decide) rfl⟩

/-! ### C6 -/

/-- C6: a memory-tier entry written at `T0` is served by a lookup strictly
before `T0 + 5` minutes and not at or after it (the lookup then falls
through); a file snapshot is served only while its age by file modification
time is strictly under 1 hour; a fresh file hit repopulates the memory tier
with the file's report; and when both tiers miss, the report handler returns
the freshly computed report. -/
theorem cache_staleness {D : Type} :
    (∀ (mem : List (String × MemEntry D)) (key : String) (d : D) (T0 T1 : Nat),
      (T1 < T0 + CACHE_DURATION →
        (getFromCache (setCache mem key d T0) key T1).1 = some d) ∧
      (T0 + CACHE_DURATION ≤ T1 →
        (getFromCache (setCache mem key d T0) key T1).1 = none)) ∧
    (∀ (files : String → Option (Nat × D)) (fp : String) (now mtime : Nat)
      (content : D), files fp = some (mtime, content) →
      (now - mtime < FILE_CACHE_DURATION →
        getReportFromFile files fp now = some content) ∧
      (FILE_CACHE_DURATION ≤ now - mtime →
        getReportFromFile files fp now = none)) ∧
    (∀ (mem : List (String × MemEntry D)) (files : String → Option (Nat × D))
      (key fp : String) (now : Nat) (compute fd : D) (mtime : Nat),
      (getFromCache mem key now).1 = none →
      files fp = some (mtime, fd) → now - mtime < FILE_CACHE_DURATION →
      (handleReport mem files key fp now false compute).1 = fd ∧
      objGet (handleReport mem files key fp now false compute).2 key =
        some ⟨fd, now⟩) ∧
    (∀ (mem : List (String × MemEntry D)) (files : String → Option (Nat × D))
      (key fp : String) (now : Nat) (compute : D),
      (getFromCache mem key now).1 = none →
      getReportFromFile files fp now = none →
      (handleReport mem files key fp now false compute).1 = compute) := by
  refine ⟨?_, ?_, ?_, ?_⟩
  · intro mem key d T0 T1
    constructor
    · intro h
      simp only [getFromCache, setCache, objGet_objSet_self]
      rw [if_pos (by unfold CACHE_DURATION at h ⊢; omega)]
    · intro h
      simp only [getFromCache, setCache, objGet_objSet_self]
      rw [if_neg (by unfold CACHE_DURATION at h ⊢; omega)]
  · intro files fp now mtime content hf
    constructor
    · intro h
      simp only [getReportFromFile, hf]
      rw [if_pos h]
    · intro h
      simp only [getReportFromFile, hf]
      rw [if_neg (by omega)]
  · intro mem files key fp now compute fd mtime hmiss hf hfresh
    have hfile : getReportFromFile files fp now = some fd := by
      simp only [getReportFromFile, hf]
      rw [if_pos hfresh]
    rcases hres : getFromCache mem key now with ⟨o, mem2⟩
    rw [hres] at hmiss
    simp only at hmiss
    subst hmiss
    constructor
    · simp [handleReport, hres, hfile]
    · simp [handleReport, hres, hfile, setCache, objGet_objSet_self]
  · intro mem files key fp now compute hmiss hfile
    rcases hres : getFromCache mem key now with ⟨o, mem2⟩
    rw [hres] at hmiss
    simp only at hmiss
    subst hmiss
    simp [handleReport, hres, hfile]

/-- C6 witness: an entry written at `T0 = 0` is served at one minute and not
at six minutes; a one-minute-old file snapshot is served while a
two-hour-old one is not; a fresh file hit after a memory miss serves and
recaches the file report; and with both tiers missing the computed report is
served. -/
theorem cache_staleness_witness :
    ((60000 : Nat) < 0 + CACHE_DURATION ∧
      (getFromCache (setCache ([] : List (String × MemEntry Nat)) "k" 42 0)
        "k" 60000).1 = some 42) ∧
    (0 + CACHE_DURATION ≤ (360000 : Nat) ∧
      (getFromCache (setCache ([] : List (String × MemEntry Nat)) "k" 42 0)
        "k" 360000).1 = none) ∧
    ((fun p => if p = "p" then some ((100, 7) : Nat × Nat) else none) "p" =
        some (100, 7) ∧
      getReportFromFile (fun p => if p = "p" then some (100, 7) else none)
        "p" 60100 = some 7) ∧
    (getReportFromFile (fun p => if p = "p" then some ((100, 7) : Nat × Nat)
        else none) "p" 7200100 = none) ∧
    ((handleReport ([] : List (String × MemEntry Nat))
        (fun p => if p = "p" then some (100, 7) else none)
        "k" "p" 60100 false 99).1 = 7 ∧
      objGet (handleReport ([] : List (String × MemEntry Nat))
        (fun p => if p = "p" then some (100, 7) else none)
        "k" "p" 60100 false 99).2 "k" = some ⟨7, 60100⟩) ∧
    ((handleReport ([] : List (String × MemEntry Nat))
        (fun _ => none) "k" "p" 60100 false 99).1 = 99) :=
  ⟨⟨by decide, (cache_staleness.1 [] "k" 42 0 60000).1 (by decide)⟩,
   ⟨by decide, (cache_staleness.1 [] "k" 42 0 360000).2 (by decide)⟩,
   ⟨rfl, (cache_staleness.2.1 _ "p" 60100 100 7 rfl).1 (by decide)⟩,
   (cache_staleness.2.1 _ "p" 7200100 100 7 rfl).2 (by decide),
   cache_staleness.2.2.1 [] _ "k" "p" 60100 99 7 100 rfl rfl (by decide),
   cache_staleness.2.2.2 [] _ "k" "p" 60100 99 rfl rfl⟩

/-! ### C7 -/

/-- C7: `aggregateStats` derives the commit window from (period, anchor) as
daily = [midnight(anchor), midnight(anchor)+1 day) — a half-open window whose
instants are exactly the anchor day — weekly = [midnight(anchor−7 days),
endOfDay(anchor)] and monthly = [midnight(anchor−30 days), endOfDay(anchor)]
— closed windows whose instants are exactly the last 8 resp. 31 civil days —
and the anchor defaults to the current time when unspecified. -/
theorem date_window_derivation (d : JSDate) :
    dateRange "daily" d = (setMidnight d, addDays (setMidnight d) 1) ∧
    dateRange "weekly" d = (setMidnight (addDays d (-7)), setEndOfDay d) ∧
    dateRange "monthly" d = (setMidnight (addDays d (-30)), setEndOfDay d) ∧
    (∀ (p : String) (now : JSDate), aggregateWindow p none now = dateRange p now) ∧
    (∀ t : JSDate, t.ms < msPerDay →
      (dleq (dateRange "daily" d).1 t ∧ dlt t (dateRange "daily" d).2 ↔
        t.day = d.day)) ∧
    (∀ t : JSDate, t.ms < msPerDay →
      (dleq (dateRange "weekly" d).1 t ∧ dleq t (dateRange "weekly" d).2 ↔
        d.day - 7 ≤ t.day ∧ t.day ≤ d.day)) ∧
    (∀ t : JSDate, t.ms < msPerDay →
      (dleq (dateRange "monthly" d).1 t ∧ dleq t (dateRange "monthly" d).2 ↔
        d.day - 30 ≤ t.day ∧ t.day ≤ d.day)) := by
  have hdaily : dateRange "daily" d = (setMidnight d, addDays (setMidnight d) 1) := by
    simp [dateRange]
  have hweekly : dateRange "weekly" d =
      (setMidnight (addDays d (-7)), setEndOfDay d) := by
    simp [dateRange]
  have hmonthly : dateRange "monthly" d =
      (setMidnight (addDays d (-30)), setEndOfDay d) := by
    simp [dateRange]
  refine ⟨hdaily, hweekly, hmonthly, fun p now => rfl, ?_, ?_, ?_⟩
  · intro t ht
    rw [hdaily]
    simp only [dleq, dlt, setMidnight, addDays, msPerDay] at *
    omega
  · intro t ht
    rw [hweekly]
    simp only [dleq, setMidnight, setEndOfDay, addDays, msPerDay] at *
    omega
  · intro t ht
    rw [hmonthly]
    simp only [dleq, setMidnight, setEndOfDay, addDays, msPerDay] at *
    omega

/-- C7 witness: at the anchor `(day 100, 5 s into the day)`, an instant on
day 100 lies in the daily window, an instant on day 95 lies in the weekly
window, and an instant on day 71 lies in the monthly window. -/
theorem date_window_derivation_witness :
    ((⟨100, 123⟩ : JSDate).ms < msPerDay) ∧
    (dleq (dateRange "daily" ⟨100, 5000⟩).1 ⟨100, 123⟩ ∧
      dlt (⟨100, 123⟩ : JSDate) (dateRange "daily" ⟨100, 5000⟩).2 ↔
      (⟨100, 123⟩ : JSDate).day = (⟨100, 5000⟩ : JSDate).day) ∧
    (dleq (dateRange "weekly" ⟨100, 5000⟩).1 ⟨95, 42⟩ ∧
      dleq (⟨95, 42⟩ : JSDate) (dateRange "weekly" ⟨100, 5000⟩).2 ↔
      (⟨100, 5000⟩ : JSDate).day - 7 ≤ (⟨95, 42⟩ : JSDate).day ∧
        (⟨95, 42⟩ : JSDate).day ≤ (⟨100, 5000⟩ : JSDate).day) ∧
    (dleq (dateRange "monthly" ⟨100, 5000⟩).1 ⟨71, 0⟩ ∧
      dleq (⟨71, 0⟩ : JSDate) (dateRange "monthly" ⟨100, 5000⟩).2 ↔
      (⟨100, 5000⟩ : JSDate).day - 30 ≤ (⟨71, 0⟩ : JSDate).day ∧
        (⟨71, 0⟩ : JSDate).day ≤ (⟨100, 5000⟩ : JSDate).day) :=
  ⟨by decide,
   (date_window_derivation ⟨100, 5000⟩).2.2.2.2.1 ⟨100, 123⟩ (by decide),
   (date_window_derivation ⟨100, 5000⟩).2.2.2.2.2.1 ⟨95, 42⟩ (by decide),
   (date_window_derivation ⟨100, 5000⟩).2.2.2.2.2.2 ⟨71, 0⟩ (by decide)⟩

/-! ### C8 -/

/-- C8 counterexample: the claim says an `AuthFailure` on every origin call
must fail the whole request; in the code it does not. On an origin where
every call fails with `AuthFailure`, `getAllRepositories` absorbs the error
(the user-repositories loop catches it, logs a token warning and breaks with
an empty list) and `aggregateStats` returns the empty zero-filled report
normally — the run terminates with a report, not a request-level fatal
error. -/
theorem auth_failure_not_fatal :
    getAllRepositories (failingOrigin .authFailure) (some "acme") = [] ∧
    aggregateStats (failingOrigin .authFailure) (some "acme") none =
      ⟨[], [], []⟩ :=
  ⟨rfl, rfl⟩

/-- C8 as amended: every failure kind at the single-repository level is
absorbed — a repository whose commit listing fails with any error (NotFound,
Transient, but equally AuthFailure or RateLimited) contributes zero data
(empty entry in the breakdown) while the rest of the run proceeds with
totals as if only the healthy repositories ran; and an origin failing every
call with any error yields the empty report rather than a request-level
error. -/
theorem error_absorption (o : Origin) (orgName : Option String)
    (rA rB : String) (e : GHError) (hA : o.commits rA = .error e)
    (hne : rA ≠ rB) :
    objGet (aggregateStats o orgName (some [rA, rB])).byRepo rA = some [] ∧
    (aggregateStats o orgName (some [rA, rB])).aggregated =
      (aggregateLoop (getAllContributors o orgName (some [rA, rB]))
        [(rB, Except.ok (analyzeRepoCommits o rB))]).aggregated ∧
    (∀ e' : GHError,
      aggregateStats (failingOrigin e') orgName none = ⟨[], [], []⟩) := by
  have hempty : analyzeRepoCommits o rA = [] := by
    unfold analyzeRepoCommits getCommitsInRangeMulti
    rw [hA]
    rfl
  have h2 : aggregateStats o orgName (some [rA, rB]) =
      aggregateLoop (getAllContributors o orgName (some [rA, rB]))
        [(rA, Except.ok []), (rB, Except.ok (analyzeRepoCommits o rB))] := by
    simp [aggregateStats, hempty]
  refine ⟨?_, ?_, ?_⟩
  · rw [h2, aggregateLoop_eq]
    simp only [List.foldl_cons, List.foldl_nil, byRepoStep]
    rw [objGet_objSet_ne _ _ hne]
    exact objGet_objSet_self _ _ _
  · rw [h2, aggregateLoop_eq, aggregateLoop_eq]
    simp only [List.foldl_cons, List.foldl_nil]
    rfl
  · intro e'
    cases orgName <;> rfl

/-- C8 amended-claim witness: on the concrete origin where `rA`'s listings
fail with `Transient` and `rB` is healthy, `rA` is recorded empty and the
aggregated map equals the `rB`-only run; any uniformly failing origin gives
the empty report. -/
theorem error_absorption_witness :
    (demoPartialOrigin.commits "rA" = .error .transient) ∧
    ("rA" ≠ "rB") ∧
    (objGet (aggregateStats demoPartialOrigin (some "acme")
      (some ["rA", "rB"])).byRepo "rA" = some [] ∧
     (aggregateStats demoPartialOrigin (some "acme")
        (some ["rA", "rB"])).aggregated =
      (aggregateLoop (getAllContributors demoPartialOrigin (some "acme")
          (some ["rA", "rB"]))
        [("rB", Except.ok (analyzeRepoCommits demoPartialOrigin "rB"))]).aggregated ∧
     (∀ e' : GHError, aggregateStats (failingOrigin e') (some "acme") none =
        ⟨[], [], []⟩)) :=
  ⟨rfl, by decide,
   error_absorption demoPartialOrigin (some "acme") "rA" "rB" .transient rfl
     (by decide)⟩

/-! ### C9 -/

/-- C9: repository auto-discovery tries the organization-scoped listing
first — returning its repositories when it yields any — and on its failure
falls back to the user-scoped listing filtered client-side by
case-insensitive match of the repository owner against the organization
name. -/
theorem discovery_fallback (o : Origin) (org : String) :
    (∀ (e : GHError) (userRs : List RepoInfo),
      o.orgRepos = .error e → o.userRepos = .ok userRs →
      getAllRepositories o (some org) =
        (userRs.filter
          (fun r => strToLower r.ownerLogin == strToLower org)).map (·.name)) ∧
    (∀ rs : List RepoInfo, o.orgRepos = .ok rs → 0 < rs.length →
      getAllRepositories o (some org) = rs.map (·.name)) := by
  constructor
  · intro e userRs horg huser
    unfold getAllRepositories userRepoFallback
    rw [horg, huser]
  · intro rs horg hlen
    unfold getAllRepositories
    rw [horg]
    simp only [if_pos hlen]

/-- C9 witness: the organization listing fails with `NotFound` and the user
listing returns five repositories of which exactly three are owned
(case-insensitively) by `Acme`; the discovered list has length 3. -/
theorem discovery_fallback_witness :
    (demoFallbackOrigin.orgRepos = .error .notFound) ∧
    (demoFallbackOrigin.userRepos = .ok demoUserRepos) ∧
    (getAllRepositories demoFallbackOrigin (some "Acme") =
      (demoUserRepos.filter
        (fun r => strToLower r.ownerLogin == strToLower "Acme")).map (·.name)) ∧
    (getAllRepositories demoFallbackOrigin (some "Acme")).length = 3 :=
  ⟨rfl, rfl,
   (discovery_fallback demoFallbackOrigin "Acme").1 .notFound demoUserRepos
     rfl rfl,
   by decide⟩

/-! ### C10 -/

/-- C10: `createLeaderboard` returns the stats entries sorted by commits
descending with netLines descending as tiebreaker; a falsy `topN` (absent or
0) returns the entire sorted leaderboard — one entry per author — and a
positive `topN` returns exactly the first `min topN (number of authors)`
entries of it. -/
theorem leaderboard_sorted_and_sliced (stats : List (String × AggStat)) :
    (∀ topN : Option Nat, List.Sorted lbLE (createLeaderboard stats topN)) ∧
    createLeaderboard stats none = createLeaderboard stats (some 0) ∧
    (createLeaderboard stats none).Perm (stats.map toLBEntry) ∧
    (createLeaderboard stats none).length = stats.length ∧
    (∀ n : Nat, 0 < n →
      createLeaderboard stats (some n) =
        (createLeaderboard stats none).take n ∧
      (createLeaderboard stats (some n)).length = min n stats.length) := by
  have hsort : List.Sorted lbLE
      (List.insertionSort lbLE (stats.map toLBEntry)) :=
    List.sorted_insertionSort lbLE _
  have hperm : (List.insertionSort lbLE (stats.map toLBEntry)).Perm
      (stats.map toLBEntry) := List.perm_insertionSort lbLE _
  have hlen : (List.insertionSort lbLE (stats.map toLBEntry)).length =
      stats.length := by
    rw [hperm.length_eq, List.length_map]
  refine ⟨?_, rfl, hperm, hlen, ?_⟩
  · intro topN
    match topN with
    | none => exact hsort
    | some 0 => exact hsort
    | some (n + 1) =>
      exact List.Pairwise.sublist (List.take_sublist _ _) hsort
  · intro n hn
    have hne : ¬(n = 0) := Nat.pos_iff_ne_zero.mp hn
    constructor
    · simp only [createLeaderboard, if_neg hne]
    · simp only [createLeaderboard, if_neg hne]
      rw [List.length_take, hlen]

/-- C10 witness: on the concrete three-author map the full leaderboard is
carol, bob, alice (commit tie broken by net lines), `topN = 2` returns its
first two entries with length `min 2 3`, and a zero `topN` returns the full
list. -/
theorem leaderboard_sorted_and_sliced_witness :
    (0 < 2) ∧
    (createLeaderboard demoAggStats (some 2) =
      (createLeaderboard demoAggStats none).take 2 ∧
     (createLeaderboard demoAggStats (some 2)).length =
      min 2 demoAggStats.length) ∧
    (createLeaderboard demoAggStats none).map (·.username) =
      ["carol", "bob", "alice"] ∧
    createLeaderboard demoAggStats none = createLeaderboard demoAggStats (some 0) :=
  ⟨by decide,
   (leaderboard_sorted_and_sliced demoAggStats).2.2.2.2 2 (by decide),
   by decide,
   by decide⟩

end GitTracker
